import Mathlib

/-!
Verification development for the log-parsing subsystem of `gnuplot_gui.py`.

The Python source is shallowly embedded: every definition below is a direct
translation of a function (or an inlined fragment) of `src/gnuplot_gui.py`.
Numeric values are modelled as exact decimals (`Dec`: an integer mantissa
over a power-of-ten denominator, compared by value); Python `float(...)`
becomes the partial parser `pyFloat` covering the decimal literals the log
grammar produces, with parse failure as `none` (a raised `ValueError` in
Python).  The program only parses, copies and compares these values, so the
exact-decimal model is faithful wherever binary float rounding does not
collapse distinct decimal literals.  File contents are modelled as
`List Char` with byte offsets as character offsets (ASCII logs).
`pandas.sort_values` (quicksort on the `Time` key, which fixes the order
of distinct keys only) is modelled as an insertion sort on the same key,
with no theorem relying on its tie order among equal keys;
`_downcast_dataframe` (a float64→float32 precision cast) is modelled as
the identity on exact values.
-/

set_option maxHeartbeats 1000000
set_option maxRecDepth 100000

/-- Python's whitespace class `\s` restricted to ASCII, as produced by log files. -/
def isPySpace (c : Char) : Bool :=
  c = ' ' || c = '\t' || c = '\n' || c = '\r' || c = '\x0b' || c = '\x0c'

/-- Boolean prefix test on character lists. -/
def isPrefixOfB : List Char → List Char → Bool
  | [], _ => true
  | _ :: _, [] => false
  | p :: ps, c :: cs => p = c && isPrefixOfB ps cs

/-- Strip a literal from the front of a character list, or fail. -/
def stripPre : List Char → List Char → Option (List Char)
  | [], cs => some cs
  | _ :: _, [] => none
  | p :: ps, c :: cs => if c = p then stripPre ps cs else none

/-- Python's `sub in s` substring containment test. -/
def containsSub (pat : List Char) : List Char → Bool
  | [] => isPrefixOfB pat []
  | c :: cs => isPrefixOfB pat (c :: cs) || containsSub pat cs

/-- Remove trailing Python whitespace. -/
def rstripWS (l : List Char) : List Char := (l.reverse.dropWhile isPySpace).reverse

/-- Python `str.strip()` on a line (both ends). -/
def pyStrip (s : String) : List Char := rstripWS (s.toList.dropWhile isPySpace)

/-- Python `str.split()` with no argument: split on whitespace runs, dropping empties. -/
def pySplitAux (acc : List Char) : List Char → List (List Char)
  | [] => if acc.isEmpty then [] else [acc.reverse]
  | c :: cs =>
    if isPySpace c then
      if acc.isEmpty then pySplitAux [] cs else acc.reverse :: pySplitAux [] cs
    else pySplitAux (c :: acc) cs

/-- Python `str.split()` returning strings. -/
def pySplit (l : List Char) : List String := (pySplitAux [] l).map String.mk

/-- Numeric value of a digit list, most significant first. -/
def natOfDigits (l : List Char) : ℕ := l.foldl (fun a c => 10 * a + (c.toNat - 48)) 0

/-- An exact decimal value `m / 10 ^ d`, the value of a parsed float literal.
Kept unnormalised; all comparisons are by value. -/
structure Dec where
  m : ℤ
  d : ℕ
deriving DecidableEq

/-- Value equality of two decimals, by cross multiplication. -/
def valEq (a b : Dec) : Bool := decide (a.m * (10 : ℤ) ^ b.d = b.m * (10 : ℤ) ^ a.d)

/-- Value comparison of two decimals, by cross multiplication. -/
def valLE (a b : Dec) : Bool := decide (a.m * (10 : ℤ) ^ b.d ≤ b.m * (10 : ℤ) ^ a.d)

/-- Negation of a decimal value. -/
def decNeg (a : Dec) : Dec := ⟨-a.m, a.d⟩

/-- Apply a decimal exponent to a mantissa, requiring a nonempty all-digit
exponent part. -/
def expApply (v : Dec) (neg : Bool) (ds : List Char) : Option Dec :=
  if ds.isEmpty || !(ds.all Char.isDigit) then none
  else
    let e := natOfDigits ds
    some (if neg then ⟨v.m, v.d + e⟩ else ⟨v.m * (10 : ℤ) ^ e, v.d⟩)

/-- Exponent tail after the `e`/`E` marker: optional sign then digits. -/
def expTail (v : Dec) : List Char → Option Dec
  | '+' :: ds => expApply v false ds
  | '-' :: ds => expApply v true ds
  | ds => expApply v false ds

/-- Finish a float literal after the mantissa: nothing, or an exponent part. -/
def finishExp (v : Dec) : List Char → Option Dec
  | [] => some v
  | 'e' :: rest => expTail v rest
  | 'E' :: rest => expTail v rest
  | _ => none

/-- Unsigned part of a Python decimal float literal: the digits of the
integer and fraction parts form the mantissa over `10 ^ (fraction length)`. -/
def pyFloatCore (cs : List Char) : Option Dec :=
  let ip := cs.takeWhile Char.isDigit
  let r1 := cs.dropWhile Char.isDigit
  match r1 with
  | '.' :: r2 =>
    let fp := r2.takeWhile Char.isDigit
    let r3 := r2.dropWhile Char.isDigit
    if ip.isEmpty && fp.isEmpty then none
    else finishExp ⟨(natOfDigits (ip ++ fp) : ℤ), fp.length⟩ r3
  | _ =>
    if ip.isEmpty then none else finishExp ⟨(natOfDigits ip : ℤ), 0⟩ r1

/-- Python `float(s)` on the decimal literals occurring in solver logs, as an
exact decimal; `none` models a raised `ValueError`. -/
def pyFloat (s : String) : Option Dec :=
  match s.toList with
  | '+' :: cs => pyFloatCore cs
  | '-' :: cs => (pyFloatCore cs).map decNeg
  | cs => pyFloatCore cs

/-! ### Column name normalisation (`LogfileParser._clean_column_name`, lines 95-105) -/

/-- Membership in the regex class `[\s\(\),]` of the first substitution. -/
def isSepChar (c : Char) : Bool := isPySpace c || c = '(' || c = ')' || c = ','

/-- Step 1: replace separators and brackets with underscores
(the regex substitution of `[\s\(\),]` by an underscore). -/
def subSep (l : List Char) : List Char :=
  l.map (fun c => if isSepChar c then '_' else c)

/-- Step 2: the left-to-right non-overlapping substitution replacing each
match of the underscore-delimited word "of" with a single underscore. -/
def subOf : List Char → List Char
  | [] => []
  | '_' :: 'o' :: 'f' :: '_' :: rest => '_' :: subOf rest
  | c :: cs => c :: subOf cs

/-- Step 3: collapse each run of two or more underscores into one
(the substitution of the pattern matching two-or-more underscores). -/
def subUnd : List Char → List Char
  | [] => []
  | [c] => [c]
  | c :: d :: rest =>
    if c = '_' && d = '_' then subUnd (d :: rest) else c :: subUnd (d :: rest)

/-- Step 4: Python `str.strip` of underscores at both ends. -/
def stripUndL (l : List Char) : List Char :=
  ((l.dropWhile (fun c => c = '_')).reverse.dropWhile (fun c => c = '_')).reverse

/-- Character-list level of `_clean_column_name`. -/
def cleanL (l : List Char) : List Char := stripUndL (subUnd (subOf (subSep l)))

/-- `LogfileParser._clean_column_name` (lines 95-105): canonicalise a raw
captured label into a column name. -/
def cleanColumnName (s : String) : String := String.mk (cleanL s.toList)

/-! ### Line matchers (the compiled regexes of `LogfileParser.__init__`, lines 85-93)

Each matcher is the deterministic characterisation of the corresponding
Python regex on the input the source feeds it. -/

/-- The time boundary regex anchored at the line start: optional whitespace,
the literal "Time = ", a nonempty non-space token, then only whitespace. -/
def timeMatch (line : String) : Option String :=
  let cs := line.toList.dropWhile isPySpace
  match stripPre ("Time = ".toList) cs with
  | none => none
  | some rest =>
    let tok := rest.takeWhile (fun c => !isPySpace c)
    let tail := rest.dropWhile (fun c => !isPySpace c)
    if tok.isEmpty then none
    else if tail.all isPySpace then some (String.mk tok) else none

/-- Grab a maximal non-space run that must end with a comma; returns the run
without its final comma, and the remainder after the run.  This is the
behaviour of a greedy non-space group followed by a comma-initial literal. -/
def grabCommaTok (cs : List Char) : Option (List Char × List Char) :=
  let run := cs.takeWhile (fun c => !isPySpace c)
  let rest := cs.dropWhile (fun c => !isPySpace c)
  match run.reverse with
  | ',' :: core => if core.isEmpty then none else some (core.reverse, rest)
  | _ => none

/-- Attempt the solver residual regex starting exactly at the given position. -/
def solverAt (cs : List Char) : Option (String × String × String × String) :=
  match stripPre ("Solving for ".toList) cs with
  | none => none
  | some r0 =>
    match grabCommaTok r0 with
    | none => none
    | some (varTok, r1) =>
      match stripPre (" Initial residual = ".toList) r1 with
      | none => none
      | some r2 =>
        match grabCommaTok r2 with
        | none => none
        | some (iRes, r3) =>
          match stripPre (" Final residual = ".toList) r3 with
          | none => none
          | some r4 =>
            match grabCommaTok r4 with
            | none => none
            | some (fRes, r5) =>
              match stripPre (" No Iterations".toList) r5 with
              | none => none
              | some r6 =>
                let ws := r6.takeWhile isPySpace
                let r7 := r6.dropWhile isPySpace
                let ds := r7.takeWhile Char.isDigit
                if ws.isEmpty || ds.isEmpty then none
                else some (String.mk varTok, String.mk iRes, String.mk fRes, String.mk ds)

/-- The solver residual regex via `re.search`: leftmost position at which the
whole pattern matches. -/
def solverSearch : List Char → Option (String × String × String × String)
  | [] => none
  | c :: cs =>
    match solverAt (c :: cs) with
    | some r => some r
    | none => solverSearch cs

/-- Right-hand side of the vector regex after the equals sign:
optional whitespace, an opening parenthesis, a nonempty greedy body, a
closing parenthesis, then only whitespace (empty, as the line is stripped). -/
def vecRHS (cs : List Char) : Option (List Char) :=
  match cs.dropWhile isPySpace with
  | '(' :: body =>
    match (rstripWS body).reverse with
    | ')' :: inner => if inner.isEmpty then none else some inner.reverse
    | _ => none
  | _ => none

/-- Scan for the vector regex: try each equals sign left to right; the lazy
name group is the prefix before the equals sign with trailing whitespace
removed, and must be nonempty. -/
def vectorMatchAux (left : List Char) : List Char → Option (String × String)
  | [] => none
  | c :: rest =>
    if c = '=' then
      let name := rstripWS left
      match (if name.isEmpty then none else vecRHS rest) with
      | some body => some (String.mk name, String.mk body)
      | none => vectorMatchAux (left ++ [c]) rest
    else vectorMatchAux (left ++ [c]) rest

/-- The vector function-object regex applied (as in the source) to the
stripped line. -/
def vectorMatch (cs : List Char) : Option (String × String) := vectorMatchAux [] cs

/-- Right-hand side of the scalar regex after the equals sign: optional
whitespace, a nonempty non-space token, then only whitespace. -/
def scalRHS (cs : List Char) : Option (List Char) :=
  let r := cs.dropWhile isPySpace
  let tok := r.takeWhile (fun c => !isPySpace c)
  let rest := r.dropWhile (fun c => !isPySpace c)
  if tok.isEmpty then none
  else if rest.all isPySpace then some tok else none

/-- Scan for the scalar regex, analogous to the vector scan. -/
def scalarMatchAux (left : List Char) : List Char → Option (String × String)
  | [] => none
  | c :: rest =>
    if c = '=' then
      let name := rstripWS left
      match (if name.isEmpty then none else scalRHS rest) with
      | some tok => some (String.mk name, String.mk tok)
      | none => scalarMatchAux (left ++ [c]) rest
    else scalarMatchAux (left ++ [c]) rest

/-- The scalar function-object regex applied to the stripped line. -/
def scalarMatch (cs : List Char) : Option (String × String) := scalarMatchAux [] cs

/-! ### The record builder (`LogfileParser.parse_lines`, lines 107-180) -/

/-- A record: a Python dict from column name to numeric value, modelled as an
insertion-ordered association list with unique keys. -/
abbrev LogRecord := List (String × Dec)

/-- Python dict assignment: update in place if the key exists, else append. -/
def recInsert : LogRecord → String → Dec → LogRecord
  | [], k, v => [(k, v)]
  | (k', v') :: rest, k, v =>
    if k' = k then (k, v) :: rest else (k', v') :: recInsert rest k v

/-- State of the classifier loop: the committed records and the currently
open record (`[]` plays the role of the empty dict, which is falsy). -/
structure PLState where
  records : List LogRecord
  current : LogRecord
deriving DecidableEq

/-- Line 113: `set(monitored_columns) if monitored_columns else None` — the
effective filter, where an empty collection is falsy and disables filtering. -/
def effSet (mc : Option (List String)) : Option (List String) :=
  match mc with
  | none => none
  | some l => if l.isEmpty then none else some l

/-- The membership gate `monitored_set is None or name in monitored_set`. -/
def gate (mset : Option (List String)) (name : String) : Bool :=
  match mset with
  | none => true
  | some s => s.contains name

/-- Parse all tokens of a vector value as floats; any failure models the
`ValueError` that aborts the whole list comprehension. -/
def floatsAll : List String → Option (List Dec)
  | [] => some []
  | t :: ts =>
    match pyFloat t with
    | none => none
    | some v =>
      match floatsAll ts with
      | none => none
      | some vs => some (v :: vs)

/-- Store up to three vector components suffixed `_x`, `_y`, `_z`, each
independently gated (lines 152-157). -/
def storeVector (mset : Option (List String)) (cur : LogRecord) (name : String) :
    List Dec → LogRecord
  | [] => cur
  | v0 :: vrest =>
    let c1 := if gate mset (name ++ "_x") then recInsert cur (name ++ "_x") v0 else cur
    let c2 :=
      match vrest with
      | v1 :: _ => if gate mset (name ++ "_y") then recInsert c1 (name ++ "_y") v1 else c1
      | [] => c1
    match vrest with
    | _ :: v2 :: _ => if gate mset (name ++ "_z") then recInsert c2 (name ++ "_z") v2 else c2
    | _ => c2

/-- One iteration of the `for line in lines` loop of `parse_lines`
(lines 115-175).  `Except.error` models an uncaught exception: the
conversions of the time value (line 121) and of the solver initial residual
(line 137) are outside any handler, while vector and scalar conversions are
guarded by handlers that drop the fields. -/
def stepLine (mset : Option (List String)) (st : PLState) (line : String) :
    Except Unit PLState :=
  match timeMatch line with
  | some tok =>
    match pyFloat tok with
    | none => .error ()
    | some t =>
      let recs := if st.current.isEmpty then st.records else st.records ++ [st.current]
      .ok ⟨recs, [("Time", t)]⟩
  | none =>
    if st.current.isEmpty then .ok st
    else if containsSub ("time step continuity errors".toList) line.toList then .ok st
    else
      match solverSearch line.toList with
      | some (varName, iRes, _fRes, _iters) =>
        let col := varName ++ "_initial_residual"
        if gate mset col then
          match pyFloat iRes with
          | none => .error ()
          | some v => .ok ⟨st.records, recInsert st.current col v⟩
        else .ok st
      | none =>
        let ls := pyStrip line
        match vectorMatch ls with
        | some (nameRaw, valuesStr) =>
          if containsSub ("Solving for".toList) nameRaw.toList then .ok st
          else
            let name := cleanColumnName nameRaw
            match floatsAll (pySplit valuesStr.toList) with
            | none => .ok st
            | some values => .ok ⟨st.records, storeVector mset st.current name values⟩
        | none =>
          match scalarMatch ls with
          | some (nameRaw, valStr) =>
            if containsSub ("Solving for".toList) nameRaw.toList then .ok st
            else
              let name := cleanColumnName nameRaw
              if gate mset name then
                match pyFloat valStr with
                | none => .ok st
                | some v => .ok ⟨st.records, recInsert st.current name v⟩
              else .ok st
          | none => .ok st

/-- Run the classifier loop over a list of lines. -/
def runLines (mset : Option (List String)) (st : PLState) :
    List String → Except Unit PLState
  | [] => .ok st
  | l :: ls =>
    match stepLine mset st l with
    | .error e => .error e
    | .ok st' => runLines mset st' ls

/-- `LogfileParser.parse_lines` (lines 107-180): classify the lines into
records, committing the open record at end of input. -/
def parse_lines (lines : List String) (monitored_columns : Option (List String)) :
    Except Unit (List LogRecord) :=
  match runLines (effSet monitored_columns) ⟨[], []⟩ lines with
  | .error e => .error e
  | .ok st => .ok (if st.current.isEmpty then st.records else st.records ++ [st.current])

/-! ### The table pipeline (`LogfileParser.parse`, lines 182-203, and the
merge of `_execute_incremental_parse`, lines 972-980)

A pandas DataFrame is modelled as a column-name list plus rows of optional
cells (`none` is NaN). -/

deriving instance DecidableEq for Except

/-- A DataFrame row: one optional cell per column. -/
abbrev DfRow := List (Option Dec)

/-- A pandas DataFrame: named columns and aligned rows. -/
structure DataFrame where
  cols : List String
  rows : List DfRow
deriving DecidableEq

/-- Add the keys of one record to a column list, in order of first appearance. -/
def addKeys : List String → LogRecord → List String
  | acc, [] => acc
  | acc, (k, _) :: r => addKeys (if acc.contains k then acc else acc ++ [k]) r

/-- Columns of `DataFrame.from_records`: union of record keys in order of
first appearance. -/
def recordCols : List String → List LogRecord → List String
  | acc, [] => acc
  | acc, r :: rs => recordCols (addKeys acc r) rs

/-- Index of a column name in a column list (length if absent). -/
def idxOf (c : String) : List String → ℕ
  | [] => 0
  | k :: l => if k = c then 0 else idxOf c l + 1

/-- Align one record to a column list, `none` for absent keys. -/
def toRow (cols : List String) (r : LogRecord) : DfRow :=
  cols.map (fun c => List.lookup c r)

/-- `pd.DataFrame.from_records` on a list of dicts. -/
def fromRecords (rs : List LogRecord) : DataFrame :=
  let cols := recordCols [] rs
  ⟨cols, rs.map (toRow cols)⟩

/-- Forward-fill of a single cell from the carried last-known value. -/
def ofill (c x : Option Dec) : Option Dec :=
  match x with
  | some v => some v
  | none => c

/-- Forward-fill a row from the carry of last-known column values. -/
def zipFill : List (Option Dec) → DfRow → DfRow
  | _, [] => []
  | [], x :: xs => x :: zipFill [] xs
  | c :: cs, x :: xs => ofill c x :: zipFill cs xs

/-- `df.ffill()` row recursion: each filled row becomes the next carry. -/
def ffillRows (carry : DfRow) : List DfRow → List DfRow
  | [] => []
  | row :: rest =>
    let row' := zipFill carry row
    row' :: ffillRows row' rest

/-- `df.ffill()`. -/
def ffillDF (df : DataFrame) : DataFrame :=
  ⟨df.cols, ffillRows (df.cols.map (fun _ => none)) df.rows⟩

/-- Generic stable insertion into a sorted list. -/
def ordInsertBy (le : α → α → Bool) (a : α) : List α → List α
  | [] => [a]
  | b :: l => if le a b then a :: b :: l else b :: ordInsertBy le a l

/-- Generic insertion sort, modelling `sort_values` on the sort key.  The
source's default quicksort fixes only the ordering of distinct keys, not
the arrangement of rows whose keys are equal; no theorem below relies on
the tie order this model happens to produce (the tie-dependence of the
duplicate-Time collapse is itself established by a theorem). -/
def sortBy (le : α → α → Bool) : List α → List α
  | [] => []
  | a :: l => ordInsertBy le a (sortBy le l)

/-- Comparison of sort keys: NaN (`none`) sorts last, as in pandas. -/
def keyLE : Option Dec → Option Dec → Bool
  | some a, some b => valLE a b
  | some _, none => true
  | none, some _ => false
  | none, none => true

/-- Strict version of the key comparison. -/
def keyLT (x y : Option Dec) : Bool := ! keyLE y x

/-- Value equality of sort keys, `NaN` equal to `NaN` as in
`drop_duplicates`. -/
def keyEq : Option Dec → Option Dec → Bool
  | some a, some b => valEq a b
  | none, none => true
  | _, _ => false

/-- The sort key of a row: the cell in the column at index `i`. -/
def rowKey (i : ℕ) (row : DfRow) : Option Dec := (row.get? i).join

/-- Row comparison on the `Time` column at index `i`. -/
def rowLE (i : ℕ) (r s : DfRow) : Bool := keyLE (rowKey i r) (rowKey i s)

/-- `drop_duplicates(subset='Time', keep='last')`: keep a row iff its key
does not occur again later. -/
def dropDupLastBy (i : ℕ) : List DfRow → List DfRow
  | [] => []
  | r :: rest =>
    if rest.any (fun s => keyEq (rowKey i s) (rowKey i r)) then dropDupLastBy i rest
    else r :: dropDupLastBy i rest

/-- The shared cleanup pass of lines 194-195 and 976-977:
`df.ffill()` then `df.sort_values(by='Time').drop_duplicates(subset='Time', keep='last')`. -/
def cleanupDF (df : DataFrame) : DataFrame :=
  let dff := ffillDF df
  let i := idxOf "Time" dff.cols
  ⟨dff.cols, dropDupLastBy i (sortBy (rowLE i) dff.rows)⟩

/-- Cell of a row under a DataFrame's columns, addressed by column name. -/
def cellAt (cols : List String) (row : DfRow) (c : String) : Option Dec :=
  (row.get? (idxOf c cols)).join

/-- The `Time` cells of a DataFrame, in row order. -/
def dfTimes (df : DataFrame) : List (Option Dec) :=
  df.rows.map (rowKey (idxOf "Time" df.cols))

/-- Python `f.readlines()`: split on newlines, keeping them, with a final
unterminated fragment kept as a line. -/
def pyReadlinesAux (acc : List Char) : List Char → List String
  | [] => if acc.isEmpty then [] else [String.mk acc.reverse]
  | c :: cs =>
    if c = '\n' then String.mk (acc.reverse ++ ['\n']) :: pyReadlinesAux [] cs
    else pyReadlinesAux (c :: acc) cs

/-- Python `f.readlines()` on file content. -/
def pyReadlines (content : List Char) : List String := pyReadlinesAux [] content

/-- `LogfileParser.parse` (lines 182-203): full parse of the whole file,
returning the cleaned table and the end-of-read byte offset, or `none` for
any of the error returns (no data, incomplete dataset, or a caught
exception such as a failing time conversion). -/
def parseFull (content : List Char) : Option (DataFrame × ℕ) :=
  match parse_lines (pyReadlines content) none with
  | .error _ => none
  | .ok records =>
    if records.isEmpty then none
    else
      let df := cleanupDF (fromRecords records)
      if !(df.cols.contains "Time") || df.rows.isEmpty then none
      else some (df, content.length)

/-- Align one row of a source column list onto a combined column list. -/
def alignRow (src : List String) (row : DfRow) (cols : List String) : DfRow :=
  cols.map (fun c => (List.lookup c (src.zip row)).join)

/-- `pd.concat([a, b], ignore_index=True)`: union columns (first-appearance
order), rows stacked with `none` in absent columns. -/
def concatDF (a b : DataFrame) : DataFrame :=
  let cols := a.cols ++ b.cols.filter (fun c => !(a.cols.contains c))
  ⟨cols, a.rows.map (fun r => alignRow a.cols r cols) ++
         b.rows.map (fun r => alignRow b.cols r cols)⟩

/-- The per-tab parsing state threaded through `_execute_incremental_parse`:
the current table, the resume byte offset, and the fixed monitored-column
selection (`none` before a selection has been made). -/
structure TabState where
  logfile_df : DataFrame
  parsed_byte_offset : ℕ
  monitored_columns : Option (List String)
deriving DecidableEq

/-- `GnuplotApp._execute_incremental_parse` (lines 949-989): read the newly
appended span, classify it under the monitored filter, and merge with the
shared cleanup pass.  The `Option` file input models existence of the log
file (`none`: missing path, returns `False`); a caught exception also
returns `False` with the state unchanged. -/
def incrementalParse (st : TabState) (file : Option (List Char)) : Bool × TabState :=
  match file with
  | none => (false, st)
  | some content =>
    match st.monitored_columns with
    | none => (false, st)
    | some mc =>
      let newLines := pyReadlines (content.drop st.parsed_byte_offset)
      let newOffset := content.length
      if newLines.isEmpty then (true, st)
      else
        match parse_lines newLines (some mc) with
        | .error _ => (false, st)
        | .ok newRecords =>
          if newRecords.isEmpty then (true, { st with parsed_byte_offset := newOffset })
          else
            let combined := cleanupDF (concatDF st.logfile_df (fromRecords newRecords))
            (true, { st with logfile_df := combined, parsed_byte_offset := newOffset })

/-! ### Column catalogues (`_execute_full_parse` lines 899-942 and
`ColumnSelectorDialog.__init__` lines 27-45) -/

/-- Lexicographic comparison of character lists by code point. -/
def strListLE : List Char → List Char → Bool
  | [], _ => true
  | _ :: _, [] => false
  | a :: as, b :: bs =>
    if a.toNat < b.toNat then true
    else if b.toNat < a.toNat then false
    else strListLE as bs

/-- Python string comparison used by `sorted`: lexicographic by code point. -/
def strLE (a b : String) : Bool := strListLE a.toList b.toList

/-- Python `sorted` on strings (stable; ties are equal strings). -/
def pySortStr (l : List String) : List String := sortBy strLE l

/-- The list handed to `ColumnSelectorDialog`: every column except `Time`
(line 900), which the dialog displays as `sorted(all_columns)` (line 31). -/
def selectorColumns (dfCols : List String) : List String :=
  pySortStr (dfCols.filter (fun c => c ≠ "Time"))

/-- Membership test for residual-type columns (lines 925-926). -/
def isResidualCol (c : String) : Bool := containsSub ("initial_residual".toList) c.toList

/-- The ordered column list stored as `logfile_columns` and shown in the four
sub-plot listboxes (lines 925-929): lexicographically sorted residual
columns first, then the lexicographically sorted remaining columns. -/
def sortedCatalog (monitored : List String) : List String :=
  pySortStr (monitored.filter isResidualCol) ++
    pySortStr (monitored.filter (fun c => !isResidualCol c))

/-- The last non-missing value in a column, in row order (the value that
forward-fill carries into a subsequent row lacking that column). -/
def lastSome (l : List (Option Dec)) : Option Dec := l.foldl ofill none

/-! ### Concrete scenario data used by the closed theorems below -/

/-- Log content whose last time block (`Time = 2`) is still being written:
the block's boundary line is present but its solver line has not yet
arrived at the end of the first read. -/
def c1OldContent : List Char :=
  ("Time = 1\nSolving for p, Initial residual = 0.5, Final residual = 0.1, No Iterations 3\nTime = 2\n").toList

/-- The span appended after the first read: the completion of the `Time = 2`
block (its solver line) followed by the next boundary. -/
def c1AppContent : List Char :=
  ("Solving for p, Initial residual = 0.25, Final residual = 0.1, No Iterations 3\nTime = 3\n").toList

/-- The table produced by the full parse of `c1OldContent`: the partial
`Time = 2` row carries the forward-filled residual of the previous block. -/
def c1OldDf : DataFrame :=
  ⟨["Time", "p_initial_residual"],
   [[some ⟨1, 0⟩, some ⟨5, 1⟩], [some ⟨2, 0⟩, some ⟨5, 1⟩]]⟩

/-- The merged table after the incremental pass over `c1AppContent`. -/
def c1MergedDf : DataFrame :=
  ⟨["Time", "p_initial_residual"],
   [[some ⟨1, 0⟩, some ⟨5, 1⟩], [some ⟨2, 0⟩, some ⟨5, 1⟩], [some ⟨3, 0⟩, some ⟨5, 1⟩]]⟩

/-- Table state after the full parse of `c1OldContent` with the residual
column monitored. -/
def c1State : TabState := ⟨c1OldDf, 95, some ["p_initial_residual"]⟩

/-! ## Lemmas about the classifier loop -/

/-- Running the classifier over a concatenation threads the state. -/
theorem runLines_append (mset : Option (List String)) (st : PLState)
    (xs ys : List String) :
    runLines mset st (xs ++ ys) =
      match runLines mset st xs with
      | .error e => .error e
      | .ok st' => runLines mset st' ys := by
  induction xs generalizing st with
  | nil => simp [runLines]
  | cons l ls ih =>
    simp only [List.cons_append, runLines]
    cases stepLine mset st l with
    | error e => rfl
    | ok st' => exact ih st'

/-- With no record open, any non-boundary line is skipped without effect. -/
theorem stepLine_skip_initial (mset : Option (List String)) (recs : List LogRecord)
    (l : String) (h : timeMatch l = none) :
    stepLine mset ⟨recs, []⟩ l = .ok ⟨recs, []⟩ := by
  simp [stepLine, h]

/-- A non-boundary, non-solver line whose vector components (or scalar value)
fail to parse leaves the classifier state exactly unchanged. -/
theorem stepLine_unchanged (mset : Option (List String)) (st : PLState) (l : String)
    (ht : timeMatch l = none) (hs : solverSearch l.toList = none)
    (hcase : (∃ n vs, vectorMatch (pyStrip l) = some (n, vs) ∧
                floatsAll (pySplit vs.toList) = none)
           ∨ (vectorMatch (pyStrip l) = none ∧
              ∃ n v, scalarMatch (pyStrip l) = some (n, v) ∧ pyFloat v = none)) :
    stepLine mset st l = .ok st := by
  unfold stepLine
  rw [ht]
  by_cases hcur : st.current.isEmpty = true
  · simp only [if_pos hcur]
  · simp only [if_neg hcur]
    by_cases hnoise : containsSub ("time step continuity errors".toList) l.toList = true
    · simp only [if_pos hnoise]
    · simp only [if_neg hnoise]
      rw [hs]
      rcases hcase with ⟨n, vs, hv, hf⟩ | ⟨hvn, n, v, hsc, hf⟩
      · rw [hv]
        by_cases hsolv : containsSub ("Solving for".toList) n.toList = true
        · simp only [if_pos hsolv]
        · simp only [if_neg hsolv]
          rw [hf]
      · rw [hvn, hsc]
        by_cases hsolv : containsSub ("Solving for".toList) n.toList = true
        · simp only [if_pos hsolv]
        · simp only [if_neg hsolv]
          by_cases hg : gate mset (cleanColumnName n) = true
          · simp only [if_pos hg]
            rw [hf]
          · simp only [if_neg hg]

/-! ## Claim C1 -/

/-- Claim C1 (amended): a record cut mid-write is NOT corrected on the next
incremental pass.  Every line of the newly appended span that precedes the
span's first time-boundary line is dropped by the classifier: a pass over
the new span behaves exactly as a pass over the span with all such lines
removed, so the continuation of the cut block never re-produces a record
with the old block's Time value. -/
theorem C1_new_span_pre_boundary_lines_dropped (mc : Option (List String))
    (pre post : List String) (h : ∀ l ∈ pre, timeMatch l = none) :
    parse_lines (pre ++ post) mc = parse_lines post mc := by
  unfold parse_lines
  have key : runLines (effSet mc) ⟨[], []⟩ (pre ++ post) =
      runLines (effSet mc) ⟨[], []⟩ post := by
    induction pre with
    | nil => simp
    | cons l ls ih =>
      simp only [List.cons_append, runLines]
      rw [stepLine_skip_initial (effSet mc) [] l (h l (by simp))]
      exact ih (fun x hx => h x (by simp [hx]))
  rw [key]

/-- Witness for C1: the completion of a cut block (a solver line appearing
before the first boundary of the new span) contributes nothing. -/
theorem C1_witness :
    parse_lines
      (["Solving for p, Initial residual = 0.25, Final residual = 0.1, No Iterations 3"] ++
        ["Time = 3"]) (some ["p_initial_residual"]) =
    parse_lines ["Time = 3"] (some ["p_initial_residual"]) :=
  C1_new_span_pre_boundary_lines_dropped (some ["p_initial_residual"])
    ["Solving for p, Initial residual = 0.25, Final residual = 0.1, No Iterations 3"]
    ["Time = 3"] (by decide)

/-- Counterexample to C1 as stated: a log whose `Time = 2` block was cut
mid-write on the first pass.  The next pass over the appended span produces
only a `Time = 3` record — no record with Time value 2 is re-produced — and
the merged table still carries the forward-filled residual 0.5 in the
`Time = 2` row; the appended residual 0.25 of that block appears nowhere. -/
theorem C1_counterexample :
    parseFull c1OldContent = some (c1OldDf, 95) ∧
    parse_lines (pyReadlines c1AppContent) (some ["p_initial_residual"]) =
      .ok [[("Time", ⟨3, 0⟩)]] ∧
    incrementalParse c1State (some (c1OldContent ++ c1AppContent)) =
      (true, ⟨c1MergedDf, 182, some ["p_initial_residual"]⟩) ∧
    (∀ row ∈ c1MergedDf.rows, ¬ keyEq ((row.get? 1).join) (some ⟨25, 2⟩)) := by
  refine ⟨by decide, by decide, by decide, by decide⟩

/-! ## Claim C2 -/

/-- Claim C2 (amended): for vector-assignment and scalar-assignment lines, a
numeric token that fails to parse causes only that line's fields to be
skipped — the classifier state is unchanged, the rest of the pass proceeds
normally, and no exception escapes.  (For time-boundary and solver-residual
lines the conversion is unguarded; see the counterexample.) -/
theorem C2_vector_scalar_numeric_failures_local (mc : Option (List String))
    (pre post : List String) (l : String)
    (ht : timeMatch l = none) (hs : solverSearch l.toList = none)
    (hcase : (∃ n vs, vectorMatch (pyStrip l) = some (n, vs) ∧
                floatsAll (pySplit vs.toList) = none)
           ∨ (vectorMatch (pyStrip l) = none ∧
              ∃ n v, scalarMatch (pyStrip l) = some (n, v) ∧ pyFloat v = none)) :
    parse_lines (pre ++ l :: post) mc = parse_lines (pre ++ post) mc := by
  unfold parse_lines
  rw [runLines_append, runLines_append]
  cases hr : runLines (effSet mc) ⟨[], []⟩ pre with
  | error e => rfl
  | ok st' =>
    simp only [runLines, stepLine_unchanged (effSet mc) st' l ht hs hcase]

/-- Witness for C2: a scalar line with an unparseable value is skipped and
the pass continues. -/
theorem C2_witness :
    parse_lines (["Time = 1"] ++ "val = abc" :: []) none =
    parse_lines (["Time = 1"] ++ []) none :=
  C2_vector_scalar_numeric_failures_local none ["Time = 1"] [] "val = abc"
    (by decide) (by decide)
    (Or.inr ⟨by decide, "val", "abc", by decide, by decide⟩)

/-- Counterexample to C2 as stated: a time-boundary line matches the
time pattern but its numeric token `abc` fails to parse, and the exception
escapes the classifier instead of only that field being skipped. -/
theorem C2_counterexample : parse_lines ["Time = abc"] none = .error () := by decide

/-! ## Claims C6, C8, C10 -/

/-- Claim C6: with no monitored-column filter, the four example lines parse
to exactly the records {Time 0.1, p_initial_residual 0.05} and
{Time 0.2, p_initial_residual 0.02}, the second committed at end of input
without a trailing boundary line. -/
theorem C6_example_parse :
    parse_lines
      ["Time = 0.1",
       "Solving for p, Initial residual = 0.05, Final residual = 0.001, No Iterations 3",
       "Time = 0.2",
       "Solving for p, Initial residual = 0.02, Final residual = 0.0005, No Iterations 2"]
      none =
    .ok [[("Time", ⟨1, 1⟩), ("p_initial_residual", ⟨5, 2⟩)],
         [("Time", ⟨2, 1⟩), ("p_initial_residual", ⟨2, 2⟩)]] := by decide

/-- Claim C8: in a session whose monitored columns are fixed, invoking the
incremental parser on a file that has not grown past the parse cursor
returns success and leaves the whole state (table and cursor) unchanged. -/
theorem C8_zero_growth_idempotent (st : TabState) (content : List Char)
    (hmc : st.monitored_columns.isSome)
    (hlen : content.length ≤ st.parsed_byte_offset) :
    incrementalParse st (some content) = (true, st) := by
  obtain ⟨mc, hmc'⟩ := Option.isSome_iff_exists.mp hmc
  unfold incrementalParse
  rw [hmc']
  have hd : content.drop st.parsed_byte_offset = [] := by
    simp [List.drop_eq_nil_iff, hlen]
  simp [hd, pyReadlines, pyReadlinesAux]

/-- Witness for C8 at a concrete state and file. -/
theorem C8_witness :
    incrementalParse ⟨⟨["Time"], [[some ⟨1, 0⟩]]⟩, 9, some ["a"]⟩
      (some ("Time = 1\n".toList)) =
    (true, ⟨⟨["Time"], [[some ⟨1, 0⟩]]⟩, 9, some ["a"]⟩) :=
  C8_zero_growth_idempotent ⟨⟨["Time"], [[some ⟨1, 0⟩]]⟩, 9, some ["a"]⟩
    ("Time = 1\n".toList) (by decide) (by decide)

/-- Claim C10: an empty (but present) monitored collection is falsy in the
filter construction, so the classifier behaves exactly as with no filter:
it collects everything rather than suppressing all fields. -/
theorem C10_empty_filter_collects_all (lines : List String) :
    parse_lines lines (some []) = parse_lines lines none := rfl

/-! ## Claim C3: the column name normaliser -/

theorem mem_subSep (l : List Char) (c : Char) (h : c ∈ subSep l) : isSepChar c = false := by
  unfold subSep at h
  obtain ⟨a, _, rfl⟩ := List.mem_map.mp h
  by_cases ha : isSepChar a = true
  · rw [if_pos ha]
    decide
  · rw [if_neg ha]
    simpa using ha

theorem mem_subOf (l : List Char) (a : Char) (h : a ∈ subOf l) : a ∈ l := by
  induction l using subOf.induct with
  | case1 => simp [subOf] at h
  | case2 rest ih =>
    rw [subOf] at h
    rcases List.mem_cons.mp h with h1 | h2
    · simp [h1]
    · have := ih h2
      simp [this]
  | case3 c cs hne ih =>
    rw [subOf] at h
    · rcases List.mem_cons.mp h with h1 | h2
      · simp [h1]
      · simp [ih h2]
    · exact hne

theorem mem_subUnd (l : List Char) (a : Char) (h : a ∈ subUnd l) : a ∈ l := by
  induction l with
  | nil => simp [subUnd] at h
  | cons c cs ih =>
    cases cs with
    | nil => simpa [subUnd] using h
    | cons d rest =>
      rw [subUnd] at h
      by_cases hud : (c = '_' && d = '_') = true
      · rw [if_pos hud] at h
        exact List.mem_cons_of_mem c (ih h)
      · rw [if_neg hud] at h
        rcases List.mem_cons.mp h with h1 | h2
        · simp [h1]
        · exact List.mem_cons_of_mem c (ih h2)

theorem mem_stripUnd (l : List Char) (a : Char) (h : a ∈ stripUndL l) : a ∈ l := by
  unfold stripUndL at h
  rw [List.mem_reverse] at h
  have h2 := (List.dropWhile_suffix (fun c => c = '_')).subset h
  rw [List.mem_reverse] at h2
  exact (List.dropWhile_suffix (fun c => c = '_')).subset h2

theorem subSep_id (l : List Char) (h : ∀ c ∈ l, isSepChar c = false) : subSep l = l := by
  unfold subSep
  conv_rhs => rw [show l = l.map id from (List.map_id l).symm]
  exact List.map_congr_left (fun a ha => by rw [h a ha]; rfl)

theorem subOf_id (l : List Char) (h : containsSub ("_of_".toList) l = false) :
    subOf l = l := by
  induction l using subOf.induct with
  | case1 => rfl
  | case2 rest ih =>
    exfalso
    rw [containsSub] at h
    simp only [Bool.or_eq_false_iff] at h
    have := h.1
    simp [isPrefixOfB] at this
  | case3 c cs hne ih =>
    rw [containsSub, Bool.or_eq_false_iff] at h
    rw [subOf]
    · rw [ih h.2]
    · exact hne

def NoDoubleUnd (l : List Char) : Prop :=
  List.Chain' (fun a b => ¬(a = '_' ∧ b = '_')) l

theorem subUnd_id (l : List Char) (h : NoDoubleUnd l) : subUnd l = l := by
  induction l with
  | nil => rfl
  | cons c cs ih =>
    cases cs with
    | nil => rfl
    | cons d rest =>
      have hcd : ¬(c = '_' ∧ d = '_') := (List.chain'_cons.mp h).1
      have htl : NoDoubleUnd (d :: rest) := (List.chain'_cons.mp h).2
      rw [subUnd, if_neg (by simpa using hcd), ih htl]

theorem head?_subUnd (l : List Char) : (subUnd l).head? = l.head? := by
  induction l with
  | nil => rfl
  | cons c cs ih =>
    cases cs with
    | nil => rfl
    | cons d rest =>
      rw [subUnd]
      by_cases hud : (c = '_' && d = '_') = true
      · rw [if_pos hud, ih]
        have : c = d := by
          have h1 := (Bool.and_eq_true _ _).mp hud
          have hc : c = '_' := by simpa using h1.1
          have hd : d = '_' := by simpa using h1.2
          rw [hc, hd]
        simp [this]
      · rw [if_neg hud]
        rfl

theorem noDouble_subUnd (l : List Char) : NoDoubleUnd (subUnd l) := by
  induction l with
  | nil => exact List.chain'_nil
  | cons c cs ih =>
    cases cs with
    | nil => simp [subUnd, NoDoubleUnd]
    | cons d rest =>
      rw [subUnd]
      by_cases hud : (c = '_' && d = '_') = true
      · rw [if_pos hud]
        exact ih
      · rw [if_neg hud]
        unfold NoDoubleUnd
        rw [List.chain'_cons']
        refine ⟨?_, ih⟩
        intro y hy
        rw [head?_subUnd] at hy
        simp only [List.head?_cons, Option.mem_def, Option.some.injEq] at hy
        subst hy
        simpa using hud

theorem noDouble_stripUnd (l : List Char) (h : NoDoubleUnd l) :
    NoDoubleUnd (stripUndL l) := by
  unfold stripUndL NoDoubleUnd
  rw [List.chain'_reverse]
  have h1 : NoDoubleUnd (l.dropWhile (fun c => c = '_')) :=
    h.suffix (List.dropWhile_suffix _)
  have h2 : List.Chain' (fun a b => ¬(a = '_' ∧ b = '_'))
      ((l.dropWhile (fun c => c = '_')).reverse) := by
    rw [List.chain'_reverse]
    exact h1.imp (fun {a b} hab => by tauto)
  exact (h2.suffix (List.dropWhile_suffix _)).imp (fun {a b} hab => by tauto)

theorem head?_dropWhile_ne (p : α → Bool) (l : List α) (a : α)
    (h : (l.dropWhile p).head? = some a) : p a = false := by
  have := List.head?_dropWhile_not p l
  rw [h] at this
  exact this

theorem dropWhile_of_head (p : α → Bool) (l : List α)
    (h : ∀ a, l.head? = some a → p a = false) : l.dropWhile p = l := by
  cases l with
  | nil => rfl
  | cons c cs =>
    rw [List.dropWhile_cons, if_neg]
    simp [h c rfl]

theorem suffix_getLast? (X Y : List α) (h : Y <:+ X) (hne : Y ≠ []) :
    X.getLast? = Y.getLast? := by
  obtain ⟨t, rfl⟩ := h
  rw [List.getLast?_append]
  cases hy : Y.getLast? with
  | none => exact absurd (List.getLast?_eq_none_iff.mp hy) hne
  | some a => rfl

theorem stripUnd_id (l : List Char)
    (h1 : ∀ a, l.head? = some a → a ≠ '_')
    (h2 : ∀ a, l.getLast? = some a → a ≠ '_') :
    stripUndL l = l := by
  unfold stripUndL
  rw [dropWhile_of_head _ l (by intro a ha; simpa using h1 a ha)]
  rw [dropWhile_of_head _ l.reverse
    (by intro a ha; rw [List.head?_reverse] at ha; simpa using h2 a ha)]
  exact List.reverse_reverse l

theorem stripUnd_head (l : List Char) (a : Char)
    (h : (stripUndL l).head? = some a) : a ≠ '_' := by
  unfold stripUndL at h
  rw [List.head?_reverse] at h
  have hne : (l.dropWhile (fun c => c = '_')).reverse.dropWhile (fun c => c = '_') ≠ [] := by
    intro he
    rw [he] at h
    exact Option.noConfusion h
  rw [← suffix_getLast? _ _ (List.dropWhile_suffix _) hne] at h
  rw [List.getLast?_reverse] at h
  have := head?_dropWhile_ne (fun c => decide (c = '_')) l a h
  simpa using this

theorem stripUnd_last (l : List Char) (a : Char)
    (h : (stripUndL l).getLast? = some a) : a ≠ '_' := by
  unfold stripUndL at h
  rw [List.getLast?_reverse] at h
  have := head?_dropWhile_ne (fun c => decide (c = '_')) _ a h
  simpa using this

/-- Claim C3 (amended): the column name normaliser is idempotent on every
input whose normalised form contains no further underscore-delimited "of"
occurrence; in general a second application can remove further "of"
segments (see the counterexample), because the "of" substitution is a
single non-overlapping left-to-right pass. -/
theorem C3_normalizer_conditionally_idempotent (s : String)
    (h : containsSub ("_of_".toList) (cleanColumnName s).toList = false) :
    cleanColumnName (cleanColumnName s) = cleanColumnName s := by
  show String.mk (cleanL (cleanL s.toList)) = String.mk (cleanL s.toList)
  have key : cleanL (cleanL s.toList) = cleanL s.toList := by
    have h1 : ∀ c ∈ cleanL s.toList, isSepChar c = false := by
      intro c hc
      exact mem_subSep _ c
        (mem_subOf _ c (mem_subUnd _ c (mem_stripUnd _ c hc)))
    have e1 : subSep (cleanL s.toList) = cleanL s.toList := subSep_id _ h1
    have e2 : subOf (cleanL s.toList) = cleanL s.toList := subOf_id _ h
    have e3 : subUnd (cleanL s.toList) = cleanL s.toList :=
      subUnd_id _ (noDouble_stripUnd _ (noDouble_subUnd _))
    have e4 : stripUndL (cleanL s.toList) = cleanL s.toList :=
      stripUnd_id _ (fun a ha => stripUnd_head _ a ha) (fun a ha => stripUnd_last _ a ha)
    show stripUndL (subUnd (subOf (subSep (cleanL s.toList)))) = cleanL s.toList
    rw [e1, e2, e3, e4]
  rw [key]

/-- Witness for C3 at a concrete raw name. -/
theorem C3_witness : cleanColumnName (cleanColumnName "p of x") = cleanColumnName "p of x" :=
  C3_normalizer_conditionally_idempotent "p of x" (by decide)

/-- Counterexample to C3 as stated: two consecutive "of" words normalise to
a name still containing an "of" segment, and a second application removes
it — the normaliser is not idempotent on every raw input string. -/
theorem C3_counterexample :
    cleanColumnName "a_of_of_b" = "a_of_b" ∧
    cleanColumnName (cleanColumnName "a_of_of_b") = "a_b" ∧
    cleanColumnName (cleanColumnName "a_of_of_b") ≠ cleanColumnName "a_of_of_b" := by
  refine ⟨by decide, by decide, by decide⟩

/-! ## Value and key comparison lemmas -/

theorem pow10_pos (d : ℕ) : (0 : ℤ) < 10 ^ d := pow_pos (by norm_num) _

theorem valLE_refl (a : Dec) : valLE a a = true := by
  unfold valLE
  exact decide_eq_true le_rfl

theorem valLE_total (a b : Dec) : valLE a b = true ∨ valLE b a = true := by
  unfold valLE
  rcases Int.le_total (a.m * 10 ^ b.d) (b.m * 10 ^ a.d) with h | h
  · exact Or.inl (decide_eq_true h)
  · exact Or.inr (decide_eq_true h)

theorem valLE_trans (a b c : Dec) (h1 : valLE a b = true) (h2 : valLE b c = true) :
    valLE a c = true := by
  unfold valLE at h1 h2 ⊢
  rw [decide_eq_true_iff] at h1 h2 ⊢
  have pb : (0 : ℤ) < 10 ^ b.d := pow10_pos b.d
  have h1' := mul_le_mul_of_nonneg_right h1 (le_of_lt (pow10_pos c.d))
  have h2' := mul_le_mul_of_nonneg_right h2 (le_of_lt (pow10_pos a.d))
  have key : a.m * 10 ^ c.d * 10 ^ b.d ≤ c.m * 10 ^ a.d * 10 ^ b.d := by nlinarith
  exact le_of_mul_le_mul_right key pb

theorem valEq_refl (a : Dec) : valEq a a = true := by
  unfold valEq
  exact decide_eq_true rfl

theorem valEq_symm (a b : Dec) (h : valEq a b = true) : valEq b a = true := by
  unfold valEq at h ⊢
  rw [decide_eq_true_iff] at h ⊢
  omega

theorem valEq_trans (a b c : Dec) (h1 : valEq a b = true) (h2 : valEq b c = true) :
    valEq a c = true := by
  unfold valEq at h1 h2 ⊢
  rw [decide_eq_true_iff] at h1 h2 ⊢
  have pb : (10 : ℤ) ^ b.d ≠ 0 := ne_of_gt (pow10_pos b.d)
  have key : a.m * 10 ^ c.d * 10 ^ b.d = c.m * 10 ^ a.d * 10 ^ b.d := by
    calc a.m * 10 ^ c.d * 10 ^ b.d = (a.m * 10 ^ b.d) * 10 ^ c.d := by ring
    _ = (b.m * 10 ^ a.d) * 10 ^ c.d := by rw [h1]
    _ = (b.m * 10 ^ c.d) * 10 ^ a.d := by ring
    _ = (c.m * 10 ^ b.d) * 10 ^ a.d := by rw [h2]
    _ = c.m * 10 ^ a.d * 10 ^ b.d := by ring
  exact mul_right_cancel₀ pb key

theorem valEq_le (a b : Dec) (h : valEq a b = true) : valLE a b = true := by
  unfold valEq at h
  unfold valLE
  rw [decide_eq_true_iff] at h ⊢
  omega

theorem valLE_antisymm (a b : Dec) (h1 : valLE a b = true) (h2 : valLE b a = true) :
    valEq a b = true := by
  unfold valLE at h1 h2
  unfold valEq
  rw [decide_eq_true_iff] at h1 h2 ⊢
  omega

/-! Key comparison lemmas -/

theorem keyLE_refl (x : Option Dec) : keyLE x x = true := by
  cases x with
  | none => rfl
  | some a => exact valLE_refl a

theorem keyLE_total (x y : Option Dec) : keyLE x y = true ∨ keyLE y x = true := by
  cases x <;> cases y <;> simp [keyLE]
  exact valLE_total _ _

theorem keyLE_trans (x y z : Option Dec) (h1 : keyLE x y = true) (h2 : keyLE y z = true) :
    keyLE x z = true := by
  cases x <;> cases y <;> cases z <;> simp_all [keyLE]
  exact valLE_trans _ _ _ h1 h2

theorem keyEq_symm (x y : Option Dec) (h : keyEq x y = true) : keyEq y x = true := by
  cases x <;> cases y <;> simp_all [keyEq]
  exact valEq_symm _ _ h

theorem keyEq_trans (x y z : Option Dec) (h1 : keyEq x y = true) (h2 : keyEq y z = true) :
    keyEq x z = true := by
  cases x <;> cases y <;> cases z <;> simp_all [keyEq]
  exact valEq_trans _ _ _ h1 h2

theorem keyEq_le (x y : Option Dec) (h : keyEq x y = true) : keyLE x y = true := by
  cases x <;> cases y <;> simp_all [keyEq, keyLE]
  exact valEq_le _ _ h

theorem keyLT_of_le_not_eq (x y : Option Dec) (hle : keyLE x y = true)
    (hne : keyEq x y = false) : keyLT x y = true := by
  unfold keyLT
  cases hyx : keyLE y x
  · rfl
  · exfalso
    have heq : keyEq x y = true := by
      cases x with
      | none =>
        cases y with
        | none => rfl
        | some b => simp [keyLE] at hle
      | some a =>
        cases y with
        | none => simp [keyLE] at hyx
        | some b => exact valLE_antisymm a b hle hyx
    rw [heq] at hne
    exact Bool.noConfusion hne

/-! Generic stable-sort lemmas -/

theorem perm_ordInsertBy (le : α → α → Bool) (a : α) (l : List α) :
    List.Perm (ordInsertBy le a l) (a :: l) := by
  induction l with
  | nil => rfl
  | cons b t ih =>
    rw [ordInsertBy]
    by_cases h : le a b = true
    · rw [if_pos h]
    · rw [if_neg h]
      exact ((ih.cons b).trans (List.Perm.swap a b t))

theorem perm_sortBy (le : α → α → Bool) (l : List α) : List.Perm (sortBy le l) l := by
  induction l with
  | nil => rfl
  | cons a t ih =>
    exact (perm_ordInsertBy le a (sortBy le t)).trans (ih.cons a)

theorem mem_ordInsertBy (le : α → α → Bool) (a x : α) (l : List α) :
    x ∈ ordInsertBy le a l ↔ x = a ∨ x ∈ l := by
  rw [(perm_ordInsertBy le a l).mem_iff, List.mem_cons]

theorem pairwise_ordInsertBy (le : α → α → Bool)
    (htot : ∀ x y, le x y = true ∨ le y x = true)
    (htrans : ∀ x y z, le x y = true → le y z = true → le x z = true)
    (a : α) (l : List α) (h : List.Pairwise (fun x y => le x y = true) l) :
    List.Pairwise (fun x y => le x y = true) (ordInsertBy le a l) := by
  induction l with
  | nil => simp [ordInsertBy]
  | cons b t ih =>
    rw [ordInsertBy]
    rcases List.pairwise_cons.mp h with ⟨hb, ht⟩
    by_cases hab : le a b = true
    · rw [if_pos hab]
      refine List.pairwise_cons.mpr ⟨?_, h⟩
      intro y hy
      rcases List.mem_cons.mp hy with heq | hyt
      · rw [heq]
        exact hab
      · exact htrans a b y hab (hb y hyt)
    · rw [if_neg hab]
      refine List.pairwise_cons.mpr ⟨?_, ih ht⟩
      intro y hy
      rcases (mem_ordInsertBy le a y t).mp hy with heq | hyt
      · rw [heq]
        rcases htot a b with h1 | h1
        · exact absurd h1 hab
        · exact h1
      · exact hb y hyt

theorem pairwise_sortBy (le : α → α → Bool)
    (htot : ∀ x y, le x y = true ∨ le y x = true)
    (htrans : ∀ x y z, le x y = true → le y z = true → le x z = true)
    (l : List α) :
    List.Pairwise (fun x y => le x y = true) (sortBy le l) := by
  induction l with
  | nil => exact List.Pairwise.nil
  | cons a t ih => exact pairwise_ordInsertBy le htot htrans a (sortBy le t) ih

/-! Dedup lemmas -/

theorem dropDupLastBy_sublist (i : ℕ) (l : List DfRow) :
    List.Sublist (dropDupLastBy i l) l := by
  induction l with
  | nil => exact List.Sublist.refl []
  | cons r rest ih =>
    rw [dropDupLastBy]
    by_cases h : rest.any (fun s => keyEq (rowKey i s) (rowKey i r)) = true
    · rw [if_pos h]
      exact ih.cons r
    · rw [if_neg h]
      exact ih.cons₂ r

theorem pairwise_ne_dropDupLastBy (i : ℕ) (l : List DfRow) :
    List.Pairwise (fun r s => keyEq (rowKey i r) (rowKey i s) = false) (dropDupLastBy i l) := by
  induction l with
  | nil => exact List.Pairwise.nil
  | cons r rest ih =>
    rw [dropDupLastBy]
    by_cases h : rest.any (fun s => keyEq (rowKey i s) (rowKey i r)) = true
    · rw [if_pos h]
      exact ih
    · rw [if_neg h]
      refine List.pairwise_cons.mpr ⟨?_, ih⟩
      intro s hs
      have hsrest : s ∈ rest := (dropDupLastBy_sublist i rest).subset hs
      cases hks : keyEq (rowKey i r) (rowKey i s)
      · rfl
      · exfalso
        apply h
        rw [List.any_eq_true]
        exact ⟨s, hsrest, keyEq_symm _ _ hks⟩

theorem dropDupLastBy_id (i : ℕ) (l : List DfRow)
    (h : List.Pairwise (fun r s => keyEq (rowKey i r) (rowKey i s) = false) l) :
    dropDupLastBy i l = l := by
  induction l with
  | nil => rfl
  | cons r rest ih =>
    rcases List.pairwise_cons.mp h with ⟨hr, ht⟩
    rw [dropDupLastBy, if_neg, ih ht]
    rw [List.any_eq_true]
    rintro ⟨s, hs, hks⟩
    have := hr s hs
    rw [keyEq_symm _ _ hks] at this
    exact Bool.noConfusion this

/-! ## Claim C4: the duplicate-Time collapse and the sort's tie order -/

/-- Claim C4 (code bug): the duplicate-Time collapse does not guarantee that
the later-produced record wins.  `sort_values(by='Time')` with its default
quicksort promises only some Time-ordered arrangement of the rows — it is
documented as not stable — and for the records {Time 1, a 5} then
{Time 1, a 7} the pipeline forward-fills to two rows with equal Time keys:
both arrangements of these rows are sorted by the Time key, yet the
keep-last duplicate drop returns the later-produced record's row under one
arrangement and the earlier-produced record's row under the other.  The
intended "last wins" semantics (the `keep='last'` argument, and the spec)
would require a stable sort. -/
theorem C4_keep_last_depends_on_tie_order :
    (ffillDF (fromRecords [[("Time", ⟨1, 0⟩), ("a", ⟨5, 0⟩)],
        [("Time", ⟨1, 0⟩), ("a", ⟨7, 0⟩)]])).rows =
      [[some ⟨1, 0⟩, some ⟨5, 0⟩], [some ⟨1, 0⟩, some ⟨7, 0⟩]] ∧
    List.Perm [[some (⟨1, 0⟩ : Dec), some ⟨7, 0⟩], [some ⟨1, 0⟩, some ⟨5, 0⟩]]
      [[some ⟨1, 0⟩, some ⟨5, 0⟩], [some ⟨1, 0⟩, some ⟨7, 0⟩]] ∧
    List.Pairwise (fun r s => rowLE 0 r s = true)
      [[some (⟨1, 0⟩ : Dec), some ⟨5, 0⟩], [some ⟨1, 0⟩, some ⟨7, 0⟩]] ∧
    List.Pairwise (fun r s => rowLE 0 r s = true)
      [[some (⟨1, 0⟩ : Dec), some ⟨7, 0⟩], [some ⟨1, 0⟩, some ⟨5, 0⟩]] ∧
    dropDupLastBy 0 [[some (⟨1, 0⟩ : Dec), some ⟨5, 0⟩], [some ⟨1, 0⟩, some ⟨7, 0⟩]] =
      [[some ⟨1, 0⟩, some ⟨7, 0⟩]] ∧
    dropDupLastBy 0 [[some (⟨1, 0⟩ : Dec), some ⟨7, 0⟩], [some ⟨1, 0⟩, some ⟨5, 0⟩]] =
      [[some ⟨1, 0⟩, some ⟨5, 0⟩]] ∧
    ([[some (⟨1, 0⟩ : Dec), some ⟨7, 0⟩]] : List DfRow) ≠ [[some ⟨1, 0⟩, some ⟨5, 0⟩]] := by
  refine ⟨by decide, by decide, by decide, by decide, by decide, by decide, by decide⟩

/-! ffill cell lemmas -/

theorem zipFill_get?_some (carry row : List (Option Dec)) (j : ℕ) (v : Dec)
    (h : row.get? j = some (some v)) : (zipFill carry row).get? j = some (some v) := by
  induction row generalizing carry j with
  | nil => simp at h
  | cons x xs ih =>
    cases carry with
    | nil =>
      cases j with
      | zero => simpa [zipFill] using h
      | succ n =>
        rw [zipFill]
        simp only [List.get?] at h ⊢
        exact ih [] n h
    | cons c cs =>
      cases j with
      | zero =>
        simp only [List.get?] at h
        rw [zipFill]
        simp only [List.get?]
        rw [Option.some_inj.mp h]
        rfl
      | succ n =>
        rw [zipFill]
        simp only [List.get?] at h ⊢
        exact ih cs n h

theorem rowKey_zipFill (i : ℕ) (carry row : DfRow) (v : Dec)
    (h : rowKey i row = some v) : rowKey i (zipFill carry row) = some v := by
  unfold rowKey at h ⊢
  rw [Option.join_eq_some] at h
  rw [zipFill_get?_some carry row i v h]
  rfl

theorem map_rowKey_ffillRows (i : ℕ) (carry : DfRow) (rows : List DfRow)
    (h : ∀ r ∈ rows, (rowKey i r).isSome = true) :
    (ffillRows carry rows).map (rowKey i) = rows.map (rowKey i) := by
  induction rows generalizing carry with
  | nil => rfl
  | cons r rest ih =>
    rw [ffillRows]
    simp only [List.map_cons]
    obtain ⟨v, hv⟩ := Option.isSome_iff_exists.mp (h r (List.mem_cons_self r rest))
    rw [rowKey_zipFill i carry r v hv, hv,
      ih (zipFill carry r) (fun s hs => h s (List.mem_cons_of_mem r hs))]

theorem ffillRows_append (carry : DfRow) (xs ys : List DfRow) :
    ffillRows carry (xs ++ ys) =
      ffillRows carry xs ++ ffillRows ((ffillRows carry xs).getLastD carry) ys := by
  induction xs generalizing carry with
  | nil => rfl
  | cons x xt ih =>
    rw [List.cons_append, ffillRows, ffillRows, ih (zipFill carry x)]
    rw [List.getLastD_cons]
    rfl

/-! ## Sortedness of the cleaned table -/

theorem rowLE_total (i : ℕ) : ∀ x y : DfRow, rowLE i x y = true ∨ rowLE i y x = true :=
  fun x y => keyLE_total (rowKey i x) (rowKey i y)

theorem rowLE_trans (i : ℕ) : ∀ x y z : DfRow,
    rowLE i x y = true → rowLE i y z = true → rowLE i x z = true :=
  fun _ _ _ h1 h2 => keyLE_trans _ _ _ h1 h2

theorem cleanup_pairwise (df : DataFrame) :
    List.Pairwise (fun x y => keyLT x y = true) (dfTimes (cleanupDF df)) := by
  show List.Pairwise (fun x y => keyLT x y = true)
    ((dropDupLastBy (idxOf "Time" df.cols)
      (sortBy (rowLE (idxOf "Time" df.cols))
        (ffillRows (df.cols.map (fun _ => none)) df.rows))).map
          (rowKey (idxOf "Time" df.cols)))
  rw [List.pairwise_map]
  have h1 : List.Pairwise (fun r s => rowLE (idxOf "Time" df.cols) r s = true)
      (sortBy (rowLE (idxOf "Time" df.cols))
        (ffillRows (df.cols.map (fun _ => none)) df.rows)) :=
    pairwise_sortBy _ (rowLE_total _) (rowLE_trans _) _
  have h2 := h1.sublist (dropDupLastBy_sublist (idxOf "Time" df.cols) _)
  have h3 := pairwise_ne_dropDupLastBy (idxOf "Time" df.cols)
    (sortBy (rowLE (idxOf "Time" df.cols))
      (ffillRows (df.cols.map (fun _ => none)) df.rows))
  exact (h2.and h3).imp (fun hab => keyLT_of_le_not_eq _ _ hab.1 hab.2)

/-- Claim C9: after every successful full parse the table's Time keys are
pairwise strictly increasing (hence sorted strictly ascending with at most
one row per distinct Time value), and this invariant is preserved by every
invocation of the incremental parser — the only operations that produce or
mutate the table. -/
theorem C9_table_strictly_sorted_unique :
    (∀ (content : List Char) (df : DataFrame) (off : ℕ),
      parseFull content = some (df, off) →
      List.Pairwise (fun x y => keyLT x y = true) (dfTimes df)) ∧
    (∀ (st : TabState) (file : Option (List Char)),
      List.Pairwise (fun x y => keyLT x y = true) (dfTimes st.logfile_df) →
      List.Pairwise (fun x y => keyLT x y = true)
        (dfTimes ((incrementalParse st file).2.logfile_df))) := by
  constructor
  · intro content df off h
    unfold parseFull at h
    split at h
    · exact Option.noConfusion h
    · split at h
      · exact Option.noConfusion h
      · dsimp only at h
        split at h
        · exact Option.noConfusion h
        · rw [Option.some_inj, Prod.mk.injEq] at h
          rw [← h.1]
          exact cleanup_pairwise _
  · intro st file hst
    unfold incrementalParse
    split
    · exact hst
    · split
      · exact hst
      · dsimp only
        split
        · exact hst
        · split
          · exact hst
          · split
            · exact hst
            · exact cleanup_pairwise _

/-- Witness for C9 at a concrete state and a missing file. -/
theorem C9_witness :
    List.Pairwise (fun x y => keyLT x y = true)
      (dfTimes ((incrementalParse ⟨⟨["Time"], [[some ⟨1, 0⟩]]⟩, 9, some ["a"]⟩ none).2.logfile_df)) :=
  C9_table_strictly_sorted_unique.2 ⟨⟨["Time"], [[some ⟨1, 0⟩]]⟩, 9, some ["a"]⟩ none (by
    simp [dfTimes])

/-! ## Lexicographic string order -/

theorem strListLE_total : ∀ a b : List Char, strListLE a b = true ∨ strListLE b a = true
  | [], _ => Or.inl rfl
  | _ :: _, [] => Or.inr rfl
  | x :: as, y :: bs => by
    rw [strListLE, strListLE]
    by_cases hxy : x.toNat < y.toNat
    · left
      rw [if_pos hxy]
    · by_cases hyx : y.toNat < x.toNat
      · right
        rw [if_pos hyx]
      · rw [if_neg hxy, if_neg hyx, if_neg hyx, if_neg hxy]
        exact strListLE_total as bs

theorem strListLE_trans : ∀ a b c : List Char,
    strListLE a b = true → strListLE b c = true → strListLE a c = true
  | [], _, _, _, _ => rfl
  | _ :: _, [], _, h1, _ => by rw [strListLE] at h1; exact Bool.noConfusion h1
  | _ :: _, _ :: _, [], _, h2 => by rw [strListLE] at h2; exact Bool.noConfusion h2
  | x :: as, y :: bs, z :: cs, h1, h2 => by
    rw [strListLE] at h1 h2 ⊢
    by_cases hxy : x.toNat < y.toNat
    · by_cases hyz : y.toNat < z.toNat
      · rw [if_pos (show x.toNat < z.toNat by omega)]
      · by_cases hzy : z.toNat < y.toNat
        · rw [if_neg hyz, if_pos hzy] at h2
          exact Bool.noConfusion h2
        · rw [if_pos (show x.toNat < z.toNat by omega)]
    · by_cases hyx : y.toNat < x.toNat
      · rw [if_neg hxy, if_pos hyx] at h1
        exact Bool.noConfusion h1
      · rw [if_neg hxy, if_neg hyx] at h1
        by_cases hyz : y.toNat < z.toNat
        · rw [if_pos (show x.toNat < z.toNat by omega)]
        · by_cases hzy : z.toNat < y.toNat
          · rw [if_neg hyz, if_pos hzy] at h2
            exact Bool.noConfusion h2
          · rw [if_neg hyz, if_neg hzy] at h2
            rw [if_neg (show ¬ x.toNat < z.toNat by omega),
              if_neg (show ¬ z.toNat < x.toNat by omega)]
            exact strListLE_trans as bs cs h1 h2

theorem strLE_total : ∀ a b : String, strLE a b = true ∨ strLE b a = true :=
  fun a b => strListLE_total a.toList b.toList

theorem strLE_trans : ∀ a b c : String,
    strLE a b = true → strLE b c = true → strLE a c = true :=
  fun a b c h1 h2 => strListLE_trans a.toList b.toList c.toList h1 h2

/-- Claim C5 (amended): the selection collaborator receives all non-Time
column names as a single lexicographically sorted list; the two-group
ordering — residual-type columns lexicographically sorted first, then the
remaining columns lexicographically sorted — is applied to the
post-selection monitored columns handed to the sub-plot column lists. -/
theorem C5_catalog_orderings (dfCols monitored : List String) :
    (List.Pairwise (fun a b => strLE a b = true) (selectorColumns dfCols) ∧
     List.Perm (selectorColumns dfCols) (dfCols.filter (fun c => c ≠ "Time"))) ∧
    (sortedCatalog monitored =
        pySortStr (monitored.filter isResidualCol) ++
          pySortStr (monitored.filter (fun c => !isResidualCol c)) ∧
     List.Perm (sortedCatalog monitored) monitored ∧
     List.Pairwise (fun a b => strLE a b = true)
       (pySortStr (monitored.filter isResidualCol)) ∧
     List.Pairwise (fun a b => strLE a b = true)
       (pySortStr (monitored.filter (fun c => !isResidualCol c))) ∧
     (∀ c ∈ pySortStr (monitored.filter isResidualCol), isResidualCol c = true) ∧
     (∀ c ∈ pySortStr (monitored.filter (fun c => !isResidualCol c)),
        isResidualCol c = false)) := by
  refine ⟨⟨pairwise_sortBy strLE strLE_total strLE_trans _, perm_sortBy strLE _⟩,
    rfl, ?_, pairwise_sortBy strLE strLE_total strLE_trans _,
    pairwise_sortBy strLE strLE_total strLE_trans _, ?_, ?_⟩
  · exact ((perm_sortBy strLE _).append (perm_sortBy strLE _)).trans
      (List.filter_append_perm _ _)
  · intro c hc
    have := (perm_sortBy strLE (monitored.filter isResidualCol)).mem_iff.mp hc
    exact (List.mem_filter.mp this).2
  · intro c hc
    have := (perm_sortBy strLE (monitored.filter (fun c => !isResidualCol c))).mem_iff.mp hc
    have h2 := (List.mem_filter.mp this).2
    simpa using h2

/-! ## Column alignment and forward-fill of a merged record -/

theorem align_old_row (A B : String) (hA : A ≠ "Time") (hB1 : B ≠ "Time") (hB2 : B ≠ A)
    (τ : Dec) (a : Option Dec) :
    alignRow ["Time", A] [some τ, a] ["Time", A, B] = [some τ, a, none] := by
  have e1 : (A == "Time") = false := beq_eq_false_iff_ne.mpr hA
  have e2 : (B == "Time") = false := beq_eq_false_iff_ne.mpr hB1
  have e3 : (B == A) = false := beq_eq_false_iff_ne.mpr hB2
  simp [alignRow, List.lookup, e1, e2, e3]

theorem align_new_row (A B : String) (hA2 : A ≠ "Time") (hB1 : B ≠ "Time") (hB2 : B ≠ A)
    (t v : Dec) :
    alignRow ["Time", B] [some t, some v] ["Time", A, B] = [some t, none, some v] := by
  have e1 : (A == "Time") = false := beq_eq_false_iff_ne.mpr hA2
  have e2 : (A == B) = false := beq_eq_false_iff_ne.mpr (Ne.symm hB2)
  have e3 : (B == "Time") = false := beq_eq_false_iff_ne.mpr hB1
  simp [alignRow, List.lookup, e1, e2, e3]

theorem toRow_new (B : String) (hB1 : B ≠ "Time") (t v : Dec) :
    toRow ["Time", B] [("Time", t), (B, v)] = [some t, some v] := by
  have e3 : (B == "Time") = false := beq_eq_false_iff_ne.mpr hB1
  simp [toRow, List.lookup, e3]

theorem fromRecords_new_cols (B : String) (hB1 : B ≠ "Time") (t v : Dec) :
    (fromRecords [[("Time", t), (B, v)]]).cols = ["Time", B] := by
  have e3 : (B == "Time") = false := beq_eq_false_iff_ne.mpr hB1
  simp [fromRecords, recordCols, addKeys, List.contains, e3, hB1]

theorem concat_new_cols (A B : String) (hB1 : B ≠ "Time") (hB2 : B ≠ A)
    (df : DataFrame) (hcols : df.cols = ["Time", A]) (t v : Dec) :
    (concatDF df (fromRecords [[("Time", t), (B, v)]])).cols = ["Time", A, B] := by
  have e3 : (B == "Time") = false := beq_eq_false_iff_ne.mpr hB1
  have e4 : (B == A) = false := beq_eq_false_iff_ne.mpr hB2
  show df.cols ++ _ = _
  rw [fromRecords_new_cols B hB1 t v, hcols]
  simp [List.contains, e3, e4, hB1, hB2]

theorem ffill3_shape (rows : List DfRow) (c0 c1 : Option Dec)
    (h : ∀ r ∈ rows, ∃ τ a, r = [some τ, a, none]) :
    (∀ x ∈ ffillRows [c0, c1, none] rows, ∃ τ a, x = [some τ, a, none]) ∧
    (∃ τc, (ffillRows [c0, c1, none] rows).getLastD [c0, c1, none] =
      [τc, rows.foldl (fun acc r => ofill acc ((r.get? 1).join)) c1, none]) := by
  induction rows generalizing c0 c1 with
  | nil => exact ⟨by simp [ffillRows], c0, rfl⟩
  | cons r rest ih =>
    obtain ⟨τ, a, rfl⟩ := h r (List.mem_cons_self r rest)
    have hz : zipFill [c0, c1, none] [some τ, a, none] = [some τ, ofill c1 a, none] := rfl
    have hrest : ∀ r ∈ rest, ∃ τ a, r = [some τ, a, none] :=
      fun r hr => h r (List.mem_cons_of_mem _ hr)
    obtain ⟨hsh, τc, hlast⟩ := ih (some τ) (ofill c1 a) hrest
    constructor
    · intro x hx
      simp only [ffillRows, hz] at hx
      rcases List.mem_cons.mp hx with heq | hmem
      · exact ⟨τ, ofill c1 a, heq⟩
      · exact hsh x hmem
    · refine ⟨τc, ?_⟩
      simp only [ffillRows, hz, List.getLastD_cons]
      rw [hlast]
      simp [List.foldl_cons]

theorem keyEq_false_symm (x y : Option Dec) (h : keyEq x y = false) : keyEq y x = false := by
  cases hk : keyEq y x
  · rfl
  · rw [keyEq_symm y x hk] at h
    exact Bool.noConfusion h

/-- Claim C7: merging one newly parsed record carrying Time `t` and a new
column `B` (and no value for `A`) into an existing table with columns
{Time, A} forward-fills A's last known value into the new row, stores `v`
in the new row's B column, and leaves B absent (`none`) in every row whose
Time differs from `t` — in particular in every prior row. -/
theorem C7_merge_forward_fill (A B : String) (df : DataFrame) (t v : Dec)
    (hA : A ≠ "Time") (hB1 : B ≠ "Time") (hB2 : B ≠ A)
    (hcols : df.cols = ["Time", A])
    (hshape : ∀ row ∈ df.rows, ∃ τ a, row = [some τ, a])
    (hfresh : ∀ x ∈ df.rows.map (rowKey 0), keyEq x (some t) = false)
    (hnodup : List.Pairwise (fun x y => keyEq x y = false) (df.rows.map (rowKey 0))) :
    (concatDF df (fromRecords [[("Time", t), (B, v)]])).cols = ["Time", A, B] ∧
    (∃ row ∈ (cleanupDF (concatDF df (fromRecords [[("Time", t), (B, v)]]))).rows,
      rowKey 0 row = some t ∧
      cellAt ["Time", A, B] row B = some v ∧
      cellAt ["Time", A, B] row A = lastSome (df.rows.map (fun r => cellAt df.cols r A))) ∧
    (∀ row ∈ (cleanupDF (concatDF df (fromRecords [[("Time", t), (B, v)]]))).rows,
      keyEq (rowKey 0 row) (some t) = false → cellAt ["Time", A, B] row B = none) := by
  have hccols := concat_new_cols A B hB1 hB2 df hcols t v
  have hnewrows : (fromRecords [[("Time", t), (B, v)]]).rows = [[some t, some v]] := by
    show [toRow (recordCols [] [[("Time", t), (B, v)]]) [("Time", t), (B, v)]] = _
    rw [show recordCols [] [[("Time", t), (B, v)]] = ["Time", B] from
      fromRecords_new_cols B hB1 t v]
    rw [toRow_new B hB1 t v]
  have hcrows : (concatDF df (fromRecords [[("Time", t), (B, v)]])).rows =
      df.rows.map (fun r => alignRow df.cols r ["Time", A, B]) ++ [[some t, none, some v]] := by
    show df.rows.map (fun r => alignRow df.cols r
        (df.cols ++ (fromRecords [[("Time", t), (B, v)]]).cols.filter
          (fun c => !(df.cols.contains c)))) ++
      (fromRecords [[("Time", t), (B, v)]]).rows.map (fun r => alignRow
        (fromRecords [[("Time", t), (B, v)]]).cols r
        (df.cols ++ (fromRecords [[("Time", t), (B, v)]]).cols.filter
          (fun c => !(df.cols.contains c)))) = _
    rw [show df.cols ++ (fromRecords [[("Time", t), (B, v)]]).cols.filter
        (fun c => !(df.cols.contains c)) = ["Time", A, B] from hccols]
    rw [hnewrows, fromRecords_new_cols B hB1 t v]
    simp only [List.map_cons, List.map_nil]
    rw [align_new_row A B hA hB1 hB2 t v]
  -- shapes of the padded old rows
  have hpad : ∀ x ∈ df.rows.map (fun r => alignRow df.cols r ["Time", A, B]),
      ∃ τ a, x = [some τ, a, none] := by
    intro x hx
    obtain ⟨r, hr, rfl⟩ := List.mem_map.mp hx
    obtain ⟨τ, a, rfl⟩ := hshape r hr
    rw [hcols, align_old_row A B hA hB1 hB2 τ a]
    exact ⟨τ, a, rfl⟩
  obtain ⟨hshOld, τc, hlastC⟩ :=
    ffill3_shape (df.rows.map (fun r => alignRow df.cols r ["Time", A, B])) none none hpad
  -- split the forward fill at the appended row
  have hsplit : ffillRows [none, none, none]
      ((df.rows.map (fun r => alignRow df.cols r ["Time", A, B])) ++ [[some t, none, some v]]) =
      ffillRows [none, none, none] (df.rows.map (fun r => alignRow df.cols r ["Time", A, B])) ++
        [zipFill ((ffillRows [none, none, none]
          (df.rows.map (fun r => alignRow df.cols r ["Time", A, B]))).getLastD
            [none, none, none]) [some t, none, some v]] := by
    rw [ffillRows_append]
    rfl
  have hnewrow : zipFill ((ffillRows [none, none, none]
      (df.rows.map (fun r => alignRow df.cols r ["Time", A, B]))).getLastD
        [none, none, none]) [some t, none, some v] =
      [some t, (df.rows.map (fun r => alignRow df.cols r ["Time", A, B])).foldl
        (fun acc r => ofill acc ((r.get? 1).join)) none, some v] := by
    rw [hlastC]
    rfl
  -- the accumulated column-A value is the last known A value
  have haAcc : (df.rows.map (fun r => alignRow df.cols r ["Time", A, B])).foldl
      (fun acc r => ofill acc ((r.get? 1).join)) none =
      lastSome (df.rows.map (fun r => cellAt df.cols r A)) := by
    unfold lastSome
    rw [List.foldl_map, List.foldl_map]
    apply List.foldl_ext
    intro acc r hr
    obtain ⟨τ, a, rfl⟩ := hshape r hr
    rw [hcols, align_old_row A B hA hB1 hB2 τ a]
    show ofill acc a = ofill acc (([some τ, a].get? (idxOf A ["Time", A])).join)
    rw [show idxOf A ["Time", A] = 1 by simp [idxOf, Ne.symm hA]]
    rfl
  -- the cleaned-up rows
  have hclean : (cleanupDF (concatDF df (fromRecords [[("Time", t), (B, v)]]))).rows =
      dropDupLastBy 0 (sortBy (rowLE 0) (ffillRows [none, none, none]
        ((df.rows.map (fun r => alignRow df.cols r ["Time", A, B])) ++
          [[some t, none, some v]]))) := by
    show dropDupLastBy (idxOf "Time" (concatDF df (fromRecords [[("Time", t), (B, v)]])).cols)
        (sortBy (rowLE (idxOf "Time" (concatDF df (fromRecords [[("Time", t), (B, v)]])).cols))
          (ffillRows ((concatDF df (fromRecords [[("Time", t), (B, v)]])).cols.map (fun _ => none))
            (concatDF df (fromRecords [[("Time", t), (B, v)]])).rows)) = _
    rw [hccols, hcrows]
    rfl
  -- times of the filled rows
  have hsomeKeys : ∀ r ∈ df.rows.map (fun rr => alignRow df.cols rr ["Time", A, B]),
      (rowKey 0 r).isSome = true := by
    intro r hr
    obtain ⟨τ, a, rfl⟩ := hpad r hr
    rfl
  have htimes : (ffillRows [none, none, none]
      ((df.rows.map (fun r => alignRow df.cols r ["Time", A, B])) ++
        [[some t, none, some v]])).map (rowKey 0) =
      df.rows.map (rowKey 0) ++ [some t] := by
    rw [hsplit, List.map_append,
      map_rowKey_ffillRows 0 [none, none, none] _ hsomeKeys, List.map_map]
    congr 1
    · apply List.map_congr_left
      intro r hr
      obtain ⟨τ, a, rfl⟩ := hshape r hr
      show rowKey 0 (alignRow df.cols [some τ, a] ["Time", A, B]) = rowKey 0 [some τ, a]
      rw [hcols, align_old_row A B hA hB1 hB2 τ a]
      rfl
    · rw [hnewrow]
      rfl
  have hpw : List.Pairwise (fun x y => keyEq x y = false)
      ((ffillRows [none, none, none]
        ((df.rows.map (fun r => alignRow df.cols r ["Time", A, B])) ++
          [[some t, none, some v]])).map (rowKey 0)) := by
    rw [htimes]
    rw [List.pairwise_append]
    refine ⟨hnodup, List.pairwise_singleton _ _, ?_⟩
    intro x hx y hy
    rw [List.mem_singleton] at hy
    subst hy
    exact hfresh x hx
  have hpwrows := List.pairwise_map.mp hpw
  have hpwsorted : List.Pairwise (fun r s => keyEq (rowKey 0 r) (rowKey 0 s) = false)
      (sortBy (rowLE 0) (ffillRows [none, none, none]
        ((df.rows.map (fun r => alignRow df.cols r ["Time", A, B])) ++
          [[some t, none, some v]]))) := by
    refine ((perm_sortBy (rowLE 0) _).pairwise_iff ?_).mpr hpwrows
    intro x y h
    exact keyEq_false_symm _ _ h
  have hdrop := dropDupLastBy_id 0 _ hpwsorted
  have hidxB3 : idxOf B ["Time", A, B] = 2 := by
    simp [idxOf, Ne.symm hB1, Ne.symm hB2]
  have hidxA3 : idxOf A ["Time", A, B] = 1 := by
    simp [idxOf, Ne.symm hA]
  refine ⟨hccols, ?_, ?_⟩
  · refine ⟨[some t, lastSome (df.rows.map (fun r => cellAt df.cols r A)), some v], ?_, rfl, ?_, ?_⟩
    · rw [hclean, hdrop]
      apply (perm_sortBy (rowLE 0) _).mem_iff.mpr
      rw [hsplit, hnewrow, haAcc]
      exact List.mem_append_right _ (List.mem_singleton_self _)
    · unfold cellAt
      rw [hidxB3]
      rfl
    · unfold cellAt
      rw [hidxA3]
      rfl
  · intro row hrow hne
    rw [hclean, hdrop] at hrow
    have hrow1 := (perm_sortBy (rowLE 0) _).mem_iff.mp hrow
    rw [hsplit] at hrow1
    rcases List.mem_append.mp hrow1 with hold | hnew
    · obtain ⟨τ, a, rfl⟩ := hshOld row hold
      unfold cellAt
      rw [hidxB3]
      rfl
    · rw [List.mem_singleton] at hnew
      subst hnew
      rw [hnewrow] at hne
      exfalso
      have : keyEq (rowKey 0 [some t, lastSome (df.rows.map (fun r => cellAt df.cols r A)), some v]) (some t) = true := by
        show valEq t t = true
        exact valEq_refl t
      rw [haAcc] at hne
      rw [this] at hne
      exact Bool.noConfusion hne

/-- Witness for C7 at a concrete one-row table and record. -/
theorem C7_witness :
    (concatDF ⟨["Time", "A"], [[some ⟨1, 0⟩, some ⟨5, 0⟩]]⟩
      (fromRecords [[("Time", ⟨2, 0⟩), ("B", ⟨9, 0⟩)]])).cols = ["Time", "A", "B"] ∧
    (∃ row ∈ (cleanupDF (concatDF ⟨["Time", "A"], [[some ⟨1, 0⟩, some ⟨5, 0⟩]]⟩
        (fromRecords [[("Time", ⟨2, 0⟩), ("B", ⟨9, 0⟩)]]))).rows,
      rowKey 0 row = some ⟨2, 0⟩ ∧
      cellAt ["Time", "A", "B"] row "B" = some ⟨9, 0⟩ ∧
      cellAt ["Time", "A", "B"] row "A" =
        lastSome ((⟨["Time", "A"], [[some ⟨1, 0⟩, some ⟨5, 0⟩]]⟩ : DataFrame).rows.map
          (fun r => cellAt ["Time", "A"] r "A"))) ∧
    (∀ row ∈ (cleanupDF (concatDF ⟨["Time", "A"], [[some ⟨1, 0⟩, some ⟨5, 0⟩]]⟩
        (fromRecords [[("Time", ⟨2, 0⟩), ("B", ⟨9, 0⟩)]]))).rows,
      keyEq (rowKey 0 row) (some ⟨2, 0⟩) = false →
        cellAt ["Time", "A", "B"] row "B" = none) :=
  C7_merge_forward_fill "A" "B" ⟨["Time", "A"], [[some ⟨1, 0⟩, some ⟨5, 0⟩]]⟩ ⟨2, 0⟩ ⟨9, 0⟩
    (by decide) (by decide) (by decide) rfl
    (by
      intro row hrow
      rw [List.mem_singleton] at hrow
      subst hrow
      exact ⟨⟨1, 0⟩, some ⟨5, 0⟩, rfl⟩)
    (by decide) (by decide)

/-! ## Claim C5 counterexample -/

/-- Counterexample to C5 as stated: for the parsed columns
{Time, p_initial_residual, force_x} the selection dialog displays the plain
lexicographic sort (`force_x` before the residual column), not the
residuals-first two-group ordering, which differs. -/
theorem C5_counterexample :
    selectorColumns ["Time", "p_initial_residual", "force_x"] =
      ["force_x", "p_initial_residual"] ∧
    sortedCatalog ["force_x", "p_initial_residual"] =
      ["p_initial_residual", "force_x"] ∧
    selectorColumns ["Time", "p_initial_residual", "force_x"] ≠
      sortedCatalog ["force_x", "p_initial_residual"] := by
  refine ⟨by decide, by decide, by decide⟩
